import Mathlib

/-!
Verification of the work-history deduplication-and-merge pipeline of the
resume-master repository, as implemented in
`src/server/api/routers/document/work-history.ts`.

Strings are modelled as lists of characters; JavaScript `Date` values are
modelled by the two observations the code makes of them (`getFullYear` and
`getMonth`, the latter always in `0..11`) plus a day component; the Prisma
database is modelled as a state record of lists of rows, stored in creation
order (so `orderBy createdAt asc` over rows created by this code is the
storage order); the external LLM is modelled as an oracle parameter; a
`$transaction` either applies its whole body as one state transformation or
fails leaving the state unchanged.
-/

namespace ResumeMaster

/-- Strings, modelled as lists of characters. -/
abbrev Str := List Char

/-- The whitespace class of the JavaScript regular expression `\s`
(ASCII fragment plus no-break space). -/
def isWS (c : Char) : Bool :=
  c == ' ' || c == '\t' || c == '\n' || c == '\r' || c == '\x0b' ||
    c == '\x0c' || c == ' '

/-- `companyName.toLowerCase().replace(/\s/g, "")`: lowercase every character
and delete all whitespace. -/
def normalizeCompany (s : Str) : Str :=
  (s.map Char.toLower).filter (fun c => !isWS c)

/-- The Levenshtein edit distance computed by the `fastest-levenshtein`
package's `distance` function: unit-cost insertion, deletion and
substitution. -/
def levenshtein : Str → Str → Nat
  | [], ys => ys.length
  | _ :: xs, [] => xs.length + 1
  | x :: xs, y :: ys =>
      if x = y then levenshtein xs ys
      else 1 + min (levenshtein xs ys)
        (min (levenshtein (x :: xs) ys) (levenshtein xs (y :: ys)))
termination_by xs ys => xs.length + ys.length
decreasing_by all_goals simp_arith

/-- A JavaScript `Date`, modelled by the observations the router makes of it:
`getFullYear()` (the `year` field), `getMonth()` (the `month` field, always
between 0 and 11), and a day-of-month component that the matching code never
reads. -/
structure JSDate where
  year : Int
  month : Fin 12
  day : Nat
deriving DecidableEq

/-- `getFullYear() * 12 + getMonth()`, the quantity the matcher compares. -/
def monthIndex (d : JSDate) : Int :=
  d.year * 12 + (d.month : Nat)

/-- The `existing` argument of `doWorkHistoryRecordsMatch`: a stored
work-history row's company name and dates. -/
structure ExistingWH where
  companyName : Str
  startDate : JSDate
  endDate : Option JSDate
deriving DecidableEq

/-- The `newRecord` argument of `doWorkHistoryRecordsMatch`: a parsed
work-experience entry, all fields optional. -/
structure NewWH where
  company : Option Str
  startDate : Option JSDate
  endDate : Option JSDate
deriving DecidableEq

/-- `doWorkHistoryRecordsMatch` from `work-history.ts` (lines 12-65):
fuzzy company-name match (Levenshtein distance at most 5 on lowercased,
whitespace-stripped names, a missing new company read as `""`), start dates
in the same month, and end dates both absent or in the same month. -/
def doWorkHistoryRecordsMatch (existing : ExistingWH) (newRecord : NewWH) : Bool :=
  let existingCompany := normalizeCompany existing.companyName
  let newCompany := normalizeCompany (newRecord.company.getD [])
  let nameDistance := levenshtein existingCompany newCompany
  if nameDistance > 5 then false
  else
    match newRecord.startDate with
    | none => false
    | some newStart =>
      if monthIndex existing.startDate ≠ monthIndex newStart then false
      else
        match existing.endDate, newRecord.endDate with
        | none, none => true
        | none, some _ => false
        | some _, none => false
        | some existingEnd, some newEnd =>
            monthIndex existingEnd = monthIndex newEnd

/-- Two dates have equal month indices exactly when they fall in the same
calendar month of the same year. -/
theorem monthIndex_eq_iff (d e : JSDate) :
    monthIndex d = monthIndex e ↔ d.year = e.year ∧ d.month = e.month := by
  unfold monthIndex
  have hd : ((d.month : Nat) : Int) < 12 := by
    exact_mod_cast Int.ofNat_lt.mpr d.month.isLt
  have he : ((e.month : Nat) : Int) < 12 := by
    exact_mod_cast Int.ofNat_lt.mpr e.month.isLt
  constructor
  · intro h
    have hm : (d.month : Nat) = (e.month : Nat) := by omega
    exact ⟨by omega, Fin.ext hm⟩
  · rintro ⟨hy, hm⟩
    rw [hy, hm]

/-- Claim C1: `doWorkHistoryRecordsMatch` returns true exactly when the
Levenshtein distance between the lowercased, whitespace-stripped company
names (a missing new company treated as empty) is at most 5, the new entry
has a start date in the same calendar month and year as the existing start
date, and the end dates are either both absent or both present and in the
same calendar month and year. -/
theorem doWorkHistoryRecordsMatch_iff (existing : ExistingWH) (newRecord : NewWH) :
    doWorkHistoryRecordsMatch existing newRecord = true ↔
      levenshtein (normalizeCompany existing.companyName)
          (normalizeCompany (newRecord.company.getD [])) ≤ 5 ∧
      (∃ ns, newRecord.startDate = some ns ∧
        existing.startDate.year = ns.year ∧ existing.startDate.month = ns.month) ∧
      ((existing.endDate = none ∧ newRecord.endDate = none) ∨
       (∃ ee ne, existing.endDate = some ee ∧ newRecord.endDate = some ne ∧
         ee.year = ne.year ∧ ee.month = ne.month)) := by
  obtain ⟨c, sd, ed⟩ := existing
  obtain ⟨nc, nsd, ned⟩ := newRecord
  cases nsd <;> cases ed <;> cases ned <;>
    simp only [doWorkHistoryRecordsMatch] <;>
    split_ifs <;>
    simp_all [monthIndex_eq_iff, Nat.not_lt]

/-- `description.trim()`: strip leading and trailing whitespace. -/
def jsTrim (s : Str) : Str :=
  ((s.dropWhile (fun c => isWS c)).reverse.dropWhile (fun c => isWS c)).reverse

/-- `achievement.description.trim().toLowerCase()`, the normalization used by
`removeExactDuplicateWorkAchievements`. -/
def normalizeDescription (s : Str) : Str :=
  (jsTrim s).map Char.toLower

/-- The `WorkAchievementRecord` type of `work-history.ts` (lines 933-937). -/
structure WorkAchievementRecord where
  id : Nat
  description : Str
  createdAt : Nat
deriving DecidableEq

/-- The loop of `removeExactDuplicateWorkAchievements`, with the `seen` set
made explicit: an achievement whose normalized description was already seen
is counted as removed, otherwise it is kept and its normalized description
added to `seen`. -/
def removeExactDuplicatesGo (seen : List Str) :
    List WorkAchievementRecord → List WorkAchievementRecord × Nat
  | [] => ([], 0)
  | a :: rest =>
    if normalizeDescription a.description ∈ seen then
      let r := removeExactDuplicatesGo seen rest
      (r.1, r.2 + 1)
    else
      let r := removeExactDuplicatesGo (normalizeDescription a.description :: seen) rest
      (a :: r.1, r.2)

/-- `removeExactDuplicateWorkAchievements` from `work-history.ts`
(lines 1122-1141). Returns the kept achievements and the number of exact
duplicates removed. -/
def removeExactDuplicateWorkAchievements (achievements : List WorkAchievementRecord) :
    List WorkAchievementRecord × Nat :=
  removeExactDuplicatesGo [] achievements

/-- The spec's description of the kept list in claim C4: in original order,
exactly the first achievement for each distinct normalized description. -/
def specFirstPerDescription : List WorkAchievementRecord → List WorkAchievementRecord
  | [] => []
  | a :: rest =>
    a :: (specFirstPerDescription rest).filter
      (fun b => normalizeDescription b.description ≠ normalizeDescription a.description)

theorem removeExactDuplicatesGo_kept (l : List WorkAchievementRecord) :
    ∀ seen : List Str, (removeExactDuplicatesGo seen l).1 =
      (specFirstPerDescription l).filter
        (fun b => normalizeDescription b.description ∉ seen) := by
  induction l with
  | nil => intro seen; simp [removeExactDuplicatesGo, specFirstPerDescription]
  | cons a rest ih =>
    intro seen
    by_cases h : normalizeDescription a.description ∈ seen
    · simp only [removeExactDuplicatesGo, if_pos h, specFirstPerDescription,
        List.filter_cons, List.filter_filter, ih]
      simp only [h, not_true_eq_false, decide_False, Bool.false_eq_true,
        if_false]
      apply List.filter_congr
      intro b _
      by_cases hb : normalizeDescription b.description ∈ seen
      · simp [hb]
      · have hne : normalizeDescription b.description ≠
            normalizeDescription a.description := fun he => hb (he ▸ h)
        simp [hb, hne]
    · simp only [removeExactDuplicatesGo, if_neg h, specFirstPerDescription,
        List.filter_cons, List.filter_filter, ih]
      simp only [h, not_false_eq_true, decide_True, if_true]
      congr 1
      apply List.filter_congr
      intro b _
      by_cases hb : normalizeDescription b.description ∈ seen
      · simp [hb, List.mem_cons]
      · by_cases he : normalizeDescription b.description =
            normalizeDescription a.description
        · simp [hb, he, List.mem_cons]
        · simp [hb, he, List.mem_cons]

theorem removeExactDuplicatesGo_count (l : List WorkAchievementRecord) :
    ∀ seen : List Str, (removeExactDuplicatesGo seen l).1.length +
      (removeExactDuplicatesGo seen l).2 = l.length := by
  induction l with
  | nil => intro seen; simp [removeExactDuplicatesGo]
  | cons a rest ih =>
    intro seen
    by_cases h : normalizeDescription a.description ∈ seen
    · simp only [removeExactDuplicatesGo, if_pos h, List.length_cons]
      have := ih seen
      omega
    · simp only [removeExactDuplicatesGo, if_neg h, List.length_cons]
      have := ih (normalizeDescription a.description :: seen)
      simpa using by omega

theorem removeExactDuplicatesGo_nodup (l : List WorkAchievementRecord) :
    ∀ seen : List Str,
      ((removeExactDuplicatesGo seen l).1.map
        (fun a => normalizeDescription a.description)).Nodup ∧
      ∀ x ∈ (removeExactDuplicatesGo seen l).1,
        normalizeDescription x.description ∉ seen := by
  induction l with
  | nil => intro seen; simp [removeExactDuplicatesGo]
  | cons a rest ih =>
    intro seen
    by_cases h : normalizeDescription a.description ∈ seen
    · simpa only [removeExactDuplicatesGo, if_pos h] using ih seen
    · obtain ⟨hnd, hout⟩ := ih (normalizeDescription a.description :: seen)
      simp only [removeExactDuplicatesGo, if_neg h, List.map_cons,
        List.nodup_cons, List.mem_cons]
      refine ⟨⟨?_, hnd⟩, ?_⟩
      · intro hmem
        obtain ⟨x, hx, hxd⟩ := List.mem_map.mp hmem
        exact hout x hx (by simp [hxd])
      · intro x hx
        rcases hx with hx | hx
        · subst hx; exact h
        · intro hmem
          exact hout x hx (by simp [hmem])

/-- Claim C4: `removeExactDuplicateWorkAchievements` keeps, in original
order, exactly the first achievement for each distinct normalized (trimmed,
lowercased) description; the kept list's length plus the removed count
equals the input length; and the kept achievements' normalized descriptions
are pairwise distinct. -/
theorem removeExactDuplicateWorkAchievements_spec (l : List WorkAchievementRecord) :
    (removeExactDuplicateWorkAchievements l).1 = specFirstPerDescription l ∧
    (removeExactDuplicateWorkAchievements l).1.length +
      (removeExactDuplicateWorkAchievements l).2 = l.length ∧
    ((removeExactDuplicateWorkAchievements l).1.map
      (fun a => normalizeDescription a.description)).Nodup := by
  refine ⟨?_, removeExactDuplicatesGo_count l [],
    (removeExactDuplicatesGo_nodup l []).1⟩
  rw [removeExactDuplicateWorkAchievements, removeExactDuplicatesGo_kept l []]
  simp

/-- The `action` field of a final achievement in the structured LLM
response. -/
inductive MergeAction
  | merged
  | optimized
deriving DecidableEq

/-- One entry of `finalAchievements` in the structured LLM response
(`WorkAchievementMergeResultSchema`, lines 891-916). -/
structure FinalAchievement where
  description : Str
  originalIndices : List Nat
  action : MergeAction
deriving DecidableEq

/-- The structured LLM response (`WorkAchievementMergeResult`). -/
structure WorkAchievementMergeResult where
  finalAchievements : List FinalAchievement
  reasoning : Option Str
deriving DecidableEq

/-- The outcome of the `llm.invoke` call inside
`mergeWorkAchievementsWithAI`: either a parsed structured response, or a
thrown error (network failure, schema parse failure, ...). The LLM is an
external service, so the outcome is a parameter of the embedding. -/
inductive LLMOutcome
  | success (r : WorkAchievementMergeResult)
  | failure
deriving DecidableEq

/-- The return value of `mergeWorkAchievementsWithAI`: the final achievement
descriptions and the number of merged groups. -/
structure MergeAIOutput where
  finalAchievements : List Str
  groupsMerged : Nat
deriving DecidableEq

/-- The first validation of `mergeWorkAchievementsWithAI`: whether some
final achievement has an empty `originalIndices` array (the loop at
lines 1243-1253 throws on the first such entry). -/
def anyEmptyIndices (r : WorkAchievementMergeResult) : Bool :=
  r.finalAchievements.any (fun a => a.originalIndices.isEmpty)

/-- `allReferencedIndices`: the union (as a list) of the `originalIndices`
arrays of the response's final achievements. -/
def allReferencedIndices (r : WorkAchievementMergeResult) : List Nat :=
  r.finalAchievements.flatMap (fun a => a.originalIndices)

/-- `missingIndices`: the expected indices `1..n` that are not referenced by
any final achievement (lines 1256-1261). -/
def missingIndices (n : Nat) (r : WorkAchievementMergeResult) : List Nat :=
  ((List.range n).map (fun i => i + 1)).filter
    (fun i => i ∉ allReferencedIndices r)

/-- The fallback value of `mergeWorkAchievementsWithAI`: the input
descriptions in input order with `groupsMerged = 0`. -/
def mergeAIFallback (achievements : List WorkAchievementRecord) : MergeAIOutput :=
  ⟨achievements.map (fun a => a.description), 0⟩

/-- The `try`/`catch` body of `mergeWorkAchievementsWithAI`: on a thrown
LLM error the catch block returns the fallback; on a parsed response the
validations run (each throwing into the same catch block on failure) and
the response's descriptions are returned with
`groupsMerged = max(0, N - finalCount)` (truncated natural subtraction). -/
def mergeAIBody (achievements : List WorkAchievementRecord) :
    LLMOutcome → MergeAIOutput
  | .failure => mergeAIFallback achievements
  | .success aiResult =>
      if anyEmptyIndices aiResult then mergeAIFallback achievements
      else if missingIndices achievements.length aiResult ≠ [] then
        mergeAIFallback achievements
      else
        ⟨aiResult.finalAchievements.map (fun a => a.description),
          achievements.length - aiResult.finalAchievements.length⟩

/-- `mergeWorkAchievementsWithAI` from `work-history.ts` (lines 1146-1301):
at most one achievement returns the input unchanged; otherwise the LLM is
invoked and its validated response used, any thrown error or failed
validation falling back to the input descriptions. -/
def mergeWorkAchievementsWithAI (achievements : List WorkAchievementRecord)
    (llm : LLMOutcome) : MergeAIOutput :=
  if achievements.length ≤ 1 then mergeAIFallback achievements
  else mergeAIBody achievements llm

/-- The validation predicate applied to a structured response for an input
of length `n`: every final achievement carries a non-empty
`originalIndices` array, and every index from 1 to `n` is referenced by
some final achievement. -/
def validResp (n : Nat) (r : WorkAchievementMergeResult) : Bool :=
  r.finalAchievements.all (fun a => !a.originalIndices.isEmpty) &&
  (List.range n).all (fun k =>
    r.finalAchievements.any (fun a => (k + 1) ∈ a.originalIndices))

theorem mergeAI_failure (achievements : List WorkAchievementRecord) :
    mergeWorkAchievementsWithAI achievements LLMOutcome.failure =
      mergeAIFallback achievements := by
  unfold mergeWorkAchievementsWithAI
  split_ifs <;> rfl

/-- Failing the non-empty-indices check implies failing `validResp`. -/
theorem anyEmpty_validResp_false (n : Nat) (r : WorkAchievementMergeResult)
    (h : anyEmptyIndices r = true) : validResp n r = false := by
  obtain ⟨a, ha, hae⟩ := List.any_eq_true.mp h
  unfold validResp
  rw [Bool.and_eq_false_iff]
  left
  rw [List.all_eq_false]
  exact ⟨a, ha, by simp [List.isEmpty_iff.mp hae]⟩

/-- With no empty index array, `validResp` fails exactly when some expected
index is missing. -/
theorem missing_iff_validResp_false (n : Nat) (r : WorkAchievementMergeResult)
    (hemp : anyEmptyIndices r = false) :
    missingIndices n r ≠ [] ↔ validResp n r = false := by
  have hall : r.finalAchievements.all (fun a => !a.originalIndices.isEmpty) = true := by
    rw [List.all_eq_true]
    intro a ha
    rw [Bool.not_eq_true']
    rw [anyEmptyIndices, List.any_eq_false] at hemp
    exact Bool.not_eq_true _ |>.mp (hemp a ha)
  unfold validResp
  rw [hall, Bool.true_and]
  constructor
  · intro hne
    obtain ⟨i, hi⟩ := List.exists_mem_of_ne_nil _ hne
    rw [missingIndices, List.mem_filter] at hi
    obtain ⟨himem, hiref⟩ := hi
    obtain ⟨k, hk, rfl⟩ := List.mem_map.mp himem
    rw [List.all_eq_false]
    refine ⟨k, hk, ?_⟩
    rw [Bool.not_eq_true, List.any_eq_false]
    intro a ha
    simp only [decide_eq_true_eq, allReferencedIndices, List.mem_flatMap] at hiref
    simp only [Bool.not_eq_true, decide_eq_false_iff_not]
    exact fun hmem => hiref ⟨a, ha, hmem⟩
  · intro hfalse hnil
    obtain ⟨k, hk, hkf⟩ := List.all_eq_false.mp hfalse
    have hkm : (k + 1) ∈ missingIndices n r := by
      rw [missingIndices, List.mem_filter]
      refine ⟨List.mem_map.mpr ⟨k, hk, rfl⟩, ?_⟩
      simp only [decide_eq_true_eq, allReferencedIndices, List.mem_flatMap]
      rintro ⟨a, ha, hmem⟩
      have := List.any_eq_false.mp (Bool.not_eq_true _ |>.mp hkf) a ha
      simp only [decide_eq_true_eq] at this
      exact this hmem
    rw [hnil] at hkm
    exact absurd hkm (List.not_mem_nil _)

theorem mergeAI_reject (achievements : List WorkAchievementRecord)
    (r : WorkAchievementMergeResult)
    (hv : validResp achievements.length r = false) :
    mergeWorkAchievementsWithAI achievements (LLMOutcome.success r) =
      mergeAIFallback achievements := by
  unfold mergeWorkAchievementsWithAI
  by_cases h1 : achievements.length ≤ 1
  · rw [if_pos h1]
  · rw [if_neg h1]
    simp only [mergeAIBody]
    by_cases hemp : anyEmptyIndices r = true
    · rw [if_pos hemp]
    · rw [if_neg hemp]
      have hmiss : missingIndices achievements.length r ≠ [] :=
        (missing_iff_validResp_false achievements.length r
          (Bool.not_eq_true _ |>.mp hemp)).mpr hv
      rw [if_pos hmiss]

theorem mergeAI_accept (achievements : List WorkAchievementRecord)
    (r : WorkAchievementMergeResult) (h2 : 2 ≤ achievements.length)
    (hv : validResp achievements.length r = true) :
    mergeWorkAchievementsWithAI achievements (LLMOutcome.success r) =
      ⟨r.finalAchievements.map (fun a => a.description),
        achievements.length - r.finalAchievements.length⟩ := by
  unfold mergeWorkAchievementsWithAI
  have h1 : ¬ achievements.length ≤ 1 := by omega
  rw [if_neg h1]
  simp only [mergeAIBody]
  have hemp : anyEmptyIndices r = false := by
    cases hh : anyEmptyIndices r
    · rfl
    · rw [anyEmpty_validResp_false achievements.length r hh] at hv
      cases hv
  rw [if_neg (by rw [hemp]; exact Bool.false_ne_true)]
  have hmiss : ¬ missingIndices achievements.length r ≠ [] := by
    intro hne
    rw [(missing_iff_validResp_false achievements.length r hemp).mp hne] at hv
    cases hv
  rw [if_neg hmiss]

/-- Claim C2: for a list of at least two deduplicated achievements (so the
LLM path runs) and a structured response, the response's descriptions are
used as the result exactly when every final achievement carries a non-empty
`originalIndices` array and every index from 1 to N appears in the union of
those arrays; otherwise the response is rejected and the input descriptions
are returned instead. -/
theorem mergeWorkAchievementsWithAI_validation
    (achievements : List WorkAchievementRecord)
    (r : WorkAchievementMergeResult) (h2 : 2 ≤ achievements.length) :
    (validResp achievements.length r = true →
      mergeWorkAchievementsWithAI achievements (LLMOutcome.success r) =
        ⟨r.finalAchievements.map (fun a => a.description),
          achievements.length - r.finalAchievements.length⟩) ∧
    (validResp achievements.length r = false →
      mergeWorkAchievementsWithAI achievements (LLMOutcome.success r) =
        ⟨achievements.map (fun a => a.description), 0⟩) :=
  ⟨fun hv => mergeAI_accept achievements r h2 hv,
   fun hv => mergeAI_reject achievements r hv⟩

/-- A first concrete achievement carrying the metric "20%". -/
def exMetricAch1 : WorkAchievementRecord :=
  ⟨1, "Increased revenue by 20%".toList, 1⟩

/-- A second concrete achievement. -/
def exMetricAch2 : WorkAchievementRecord :=
  ⟨2, "Led team of 5 developers".toList, 2⟩

/-- A structured response that accounts for both input indices but keeps
them as two optimized entries. -/
def exGoodResp : WorkAchievementMergeResult :=
  ⟨[⟨"Did A".toList, [1], MergeAction.optimized⟩,
    ⟨"Did B".toList, [2], MergeAction.optimized⟩], none⟩

/-- Witness for claim C2: on a concrete pair of achievements and a valid
response, the response's descriptions are returned. -/
theorem mergeWorkAchievementsWithAI_validation_witness :
    validResp 2 exGoodResp = true ∧
    mergeWorkAchievementsWithAI [exMetricAch1, exMetricAch2]
        (LLMOutcome.success exGoodResp) =
      ⟨["Did A".toList, "Did B".toList], 0⟩ :=
  ⟨by decide, by
    have := (mergeWorkAchievementsWithAI_validation [exMetricAch1, exMetricAch2]
      exGoodResp (by decide)).1 (by decide)
    simpa using this⟩

/-- Claim C3: whenever the LLM call throws, or its structured response is
rejected by validation, `mergeWorkAchievementsWithAI` returns exactly the
input achievement descriptions, in input order, with `groupsMerged = 0`. -/
theorem mergeWorkAchievementsWithAI_fallback_spec
    (achievements : List WorkAchievementRecord) (llm : LLMOutcome)
    (h : llm = LLMOutcome.failure ∨
      ∃ r, llm = LLMOutcome.success r ∧ validResp achievements.length r = false) :
    mergeWorkAchievementsWithAI achievements llm =
      ⟨achievements.map (fun a => a.description), 0⟩ := by
  rcases h with h | ⟨r, hr, hv⟩
  · rw [h]; exact mergeAI_failure achievements
  · rw [hr]; exact mergeAI_reject achievements r hv

/-- Witness for claim C3: a thrown LLM call on two concrete achievements
falls back to the inputs. -/
theorem mergeWorkAchievementsWithAI_fallback_witness :
    mergeWorkAchievementsWithAI [exMetricAch1, exMetricAch2] LLMOutcome.failure =
      ⟨["Increased revenue by 20%".toList, "Led team of 5 developers".toList], 0⟩ := by
  have := mergeWorkAchievementsWithAI_fallback_spec [exMetricAch1, exMetricAch2]
    LLMOutcome.failure (Or.inl rfl)
  simpa using this

/-- Whether `pat` is an initial segment of `s`. -/
def leadsStr : Str → Str → Bool
  | [], _ => true
  | _ :: _, [] => false
  | p :: ps, c :: cs => p == c && leadsStr ps cs

/-- Whether `pat` occurs as a contiguous substring of the second argument. -/
def containsSub (pat : Str) : Str → Bool
  | [] => leadsStr pat []
  | c :: cs => leadsStr pat (c :: cs) || containsSub pat cs

/-- The metric "20%" appearing in `exMetricAch1`. -/
def exMetric : Str := "20%".toList

/-- A structured response that passes the index validation but drops the
metric "20%" from its description. -/
def exDroppingResp : WorkAchievementMergeResult :=
  ⟨[⟨"Improved business outcomes".toList, [1, 2], MergeAction.merged⟩], none⟩

/-- Claim C7 counterexample: a structured LLM response that references every
input index passes validation and is returned even though it drops the
quantifiable metric "20%" present in the input, so the code does not
guarantee that metrics survive the merge. -/
theorem mergeAI_metric_loss :
    containsSub exMetric exMetricAch1.description = true ∧
    (∀ d ∈ (mergeWorkAchievementsWithAI [exMetricAch1, exMetricAch2]
        (LLMOutcome.success exDroppingResp)).finalAchievements,
      containsSub exMetric d = false) :=
  ⟨by decide, by decide⟩

/-- Amended claim C7: the merge step performs no factual-content check of
its own — any response passing the index validation is returned verbatim
as the final achievements, whatever its descriptions contain; the input
text is preserved by the code only through the fallback path. -/
theorem mergeAI_no_content_check (achievements : List WorkAchievementRecord)
    (r : WorkAchievementMergeResult) (h2 : 2 ≤ achievements.length)
    (hv : validResp achievements.length r = true) :
    (mergeWorkAchievementsWithAI achievements
        (LLMOutcome.success r)).finalAchievements =
      r.finalAchievements.map (fun a => a.description) := by
  rw [mergeAI_accept achievements r h2 hv]

/-- Witness for the amended claim C7: the metric-dropping response is valid
and its description list is returned unchanged. -/
theorem mergeAI_no_content_check_witness :
    validResp 2 exDroppingResp = true ∧
    (mergeWorkAchievementsWithAI [exMetricAch1, exMetricAch2]
        (LLMOutcome.success exDroppingResp)).finalAchievements =
      ["Improved business outcomes".toList] :=
  ⟨by decide, by
    have := mergeAI_no_content_check [exMetricAch1, exMetricAch2] exDroppingResp
      (by decide) (by decide)
    simpa using this⟩

/-- A stored `WorkHistory` row (the fields this router reads and writes). -/
structure WorkHistoryRow where
  id : Nat
  userId : Nat
  companyName : Str
  jobTitle : Str
  startDate : JSDate
  endDate : Option JSDate
deriving DecidableEq

/-- A stored `WorkAchievement` row. `createdAt` is a timestamp; rows are
stored in creation order, so `orderBy createdAt asc` over rows created by
this code coincides with storage order. -/
structure WorkAchievementRow where
  id : Nat
  workHistoryId : Nat
  description : Str
  createdAt : Nat
deriving DecidableEq

/-- A stored `UserSkill` row (the fields the merge code reads and writes).
Per the Prisma schema, `workHistoryId` is optional and is set to null when
the referenced work history is deleted (`onDelete: SetNull`). -/
structure UserSkillRow where
  id : Nat
  userId : Nat
  skillId : Nat
  workHistoryId : Option Nat
deriving DecidableEq

/-- The database state: the three tables this router touches, plus a
counter supplying fresh row ids (and creation timestamps). -/
structure DBState where
  workHistories : List WorkHistoryRow
  workAchievements : List WorkAchievementRow
  userSkills : List UserSkillRow
  nextId : Nat
deriving DecidableEq

/-- `workHistory.findFirst({where: {id, userId}})`. -/
def findWorkHistory (db : DBState) (workHistoryId userId : Nat) :
    Option WorkHistoryRow :=
  db.workHistories.find? (fun wh => wh.id = workHistoryId ∧ wh.userId = userId)

/-- `workAchievement.findMany({where: {workHistoryId}, orderBy: {createdAt: "asc"}})`;
storage order is creation order, so the filter preserves it. -/
def achievementsFor (db : DBState) (workHistoryId : Nat) :
    List WorkAchievementRow :=
  db.workAchievements.filter (fun a => a.workHistoryId = workHistoryId)

/-- The `userSkills` relation of a work-history row: the user skills whose
`workHistoryId` points at it. -/
def userSkillsFor (db : DBState) (workHistoryId : Nat) : List UserSkillRow :=
  db.userSkills.filter (fun s => s.workHistoryId = some workHistoryId)

/-- View a stored achievement row as the `WorkAchievementRecord` service
type. -/
def rowToRecord (a : WorkAchievementRow) : WorkAchievementRecord :=
  ⟨a.id, a.description, a.createdAt⟩

/-- `workAchievement.createMany`: one fresh row per description, in order,
ids (and timestamps) taken consecutively from `startId`. -/
def mkAchievementRows (workHistoryId startId : Nat) :
    List Str → List WorkAchievementRow
  | [] => []
  | d :: ds =>
      ⟨startId, workHistoryId, d, startId⟩ ::
        mkAchievementRows workHistoryId (startId + 1) ds

theorem mkAchievementRows_desc (workHistoryId : Nat) (ds : List Str) :
    ∀ startId, (mkAchievementRows workHistoryId startId ds).map
      (fun a => a.description) = ds := by
  induction ds with
  | nil => intro s; rfl
  | cons d ds ih => intro s; simp [mkAchievementRows, ih]

theorem mkAchievementRows_mem (workHistoryId : Nat) (ds : List Str) :
    ∀ startId, ∀ a ∈ mkAchievementRows workHistoryId startId ds,
      a.workHistoryId = workHistoryId ∧ startId ≤ a.id := by
  induction ds with
  | nil => intro s a ha; cases ha
  | cons d ds ih =>
    intro s a ha
    rcases List.mem_cons.mp ha with rfl | ha
    · exact ⟨rfl, Nat.le_refl s⟩
    · obtain ⟨h1, h2⟩ := ih (s + 1) a ha
      exact ⟨h1, by omega⟩

/-- The return value of `applyApprovedWorkAchievements`. -/
structure ApplyApprovedResult where
  success : Bool
  message : Str
  appliedCount : Nat
deriving DecidableEq

/-- `applyApprovedWorkAchievements` from `work-history.ts` (lines
1071-1117): verify that the work history belongs to the user (throwing
otherwise), then in one transaction delete all of its achievements and
create one row per approved description, in order. `txOk = false` models a
failed transaction, which throws with the state rolled back. -/
def applyApprovedWorkAchievements (db : DBState) (userId workHistoryId : Nat)
    (approvedAchievements : List Str) (txOk : Bool) :
    Except Str ApplyApprovedResult × DBState :=
  match findWorkHistory db workHistoryId userId with
  | none => (Except.error ("Work history not found or access denied").toList, db)
  | some _ =>
      if txOk then
        let remaining := db.workAchievements.filter
          (fun a => a.workHistoryId ≠ workHistoryId)
        let db2 : DBState :=
          { db with
            workAchievements := remaining ++
              mkAchievementRows workHistoryId db.nextId approvedAchievements,
            nextId := db.nextId + approvedAchievements.length }
        (Except.ok
          ⟨true,
            ("Successfully applied ").toList ++
              Nat.toDigits 10 approvedAchievements.length ++
              (" approved achievements.").toList,
            approvedAchievements.length⟩, db2)
      else (Except.error ("transaction failed").toList, db)

/-- Claim C9: `applyApprovedWorkAchievements` throws when no work history
with the given id belongs to the user (leaving the state unchanged);
otherwise, on a successful transaction, the work history's stored
achievements afterwards are exactly the approved list — one record per
entry, in order, duplicates included — every previously stored achievement
of that work history is gone, and the returned `appliedCount` is the
list's length. The freshness hypothesis is the database invariant that the
id counter exceeds every stored row id. -/
theorem applyApprovedWorkAchievements_spec (db : DBState)
    (userId workHistoryId : Nat) (approved : List Str)
    (hfresh : ∀ a ∈ db.workAchievements, a.id < db.nextId) :
    (findWorkHistory db workHistoryId userId = none →
      ∀ txOk, ∃ e, applyApprovedWorkAchievements db userId workHistoryId
        approved txOk = (Except.error e, db)) ∧
    (findWorkHistory db workHistoryId userId ≠ none →
      (∃ res, (applyApprovedWorkAchievements db userId workHistoryId
          approved true).1 = Except.ok res ∧
        res.success = true ∧ res.appliedCount = approved.length) ∧
      (achievementsFor (applyApprovedWorkAchievements db userId workHistoryId
          approved true).2 workHistoryId).map (fun a => a.description) =
        approved ∧
      (∀ a ∈ db.workAchievements, a.workHistoryId = workHistoryId →
        a ∉ (applyApprovedWorkAchievements db userId workHistoryId
          approved true).2.workAchievements)) := by
  constructor
  · intro hnone txOk
    refine ⟨("Work history not found or access denied").toList, ?_⟩
    unfold applyApprovedWorkAchievements
    rw [hnone]
  · intro hsome
    cases hfind : findWorkHistory db workHistoryId userId with
    | none => exact absurd hfind hsome
    | some wh =>
      unfold applyApprovedWorkAchievements
      rw [hfind]
      rw [if_pos rfl]
      refine ⟨⟨_, rfl, rfl, rfl⟩, ?_, ?_⟩
      · unfold achievementsFor
        rw [List.filter_append]
        have h1 : (db.workAchievements.filter
            (fun a => a.workHistoryId ≠ workHistoryId)).filter
            (fun a => a.workHistoryId = workHistoryId) = [] := by
          rw [List.filter_filter, List.filter_eq_nil_iff]
          intro a _
          simp only [Bool.and_eq_true, decide_eq_true_eq]
          rintro ⟨h2, h3⟩
          exact absurd h2 h3
        have h2 : (mkAchievementRows workHistoryId db.nextId approved).filter
            (fun a => a.workHistoryId = workHistoryId) =
            mkAchievementRows workHistoryId db.nextId approved := by
          rw [List.filter_eq_self]
          intro a ha
          simp [(mkAchievementRows_mem workHistoryId approved db.nextId a ha).1]
        rw [h1, h2, List.nil_append, mkAchievementRows_desc]
      · intro a ha hwhid hmem
        rw [List.mem_append] at hmem
        rcases hmem with hmem | hmem
        · rw [List.mem_filter] at hmem
          have := hmem.2
          simp only [decide_eq_true_eq] at this
          exact this hwhid
        · have := (mkAchievementRows_mem workHistoryId approved db.nextId a hmem).2
          have := hfresh a ha
          omega

/-- A concrete date for witness states. -/
def exDate : JSDate := ⟨2020, 3, 15⟩

/-- A concrete work-history row owned by user 1. -/
def exWH : WorkHistoryRow :=
  ⟨10, 1, "Acme Corp".toList, "Engineer".toList, exDate, none⟩

/-- A concrete database with one work history and one stored achievement. -/
def exDB : DBState :=
  ⟨[exWH], [⟨20, 10, "Old achievement".toList, 20⟩], [], 100⟩

/-- Witness for claim C9: applying two approved achievements to the
concrete database stores exactly those two descriptions. -/
theorem applyApprovedWorkAchievements_witness :
    (achievementsFor (applyApprovedWorkAchievements exDB 1 10
        ["New A".toList, "New B".toList] true).2 10).map
      (fun a => a.description) = ["New A".toList, "New B".toList] :=
  ((applyApprovedWorkAchievements_spec exDB 1 10
    ["New A".toList, "New B".toList] (by decide)).2 (by decide)).2.1

/-- The `action` tag of a preview entry. -/
inductive PreviewAction
  | kept
  | merged
  | final
deriving DecidableEq

/-- One preview entry of the deduplication result. -/
structure PreviewEntry where
  description : Str
  action : PreviewAction
deriving DecidableEq

/-- `WorkAchievementDeduplicationResult` (lines 923-931). -/
structure WorkAchievementDeduplicationResult where
  success : Bool
  message : Str
  originalCount : Nat
  finalCount : Nat
  exactDuplicatesRemoved : Nat
  similarGroupsMerged : Nat
  preview : List PreviewEntry
deriving DecidableEq

/-- `deduplicateAndMergeWorkAchievements` (lines 943-1064): verify access
(throwing otherwise); with at most one achievement return immediately; then
remove exact duplicates; with at most one survivor delete the duplicates
(unless `dryRun`, and only when there were any) and return; otherwise
consult the LLM, return a preview when `dryRun`, and otherwise replace the
work history's achievements with the merge result in one transaction.
`txOk = false` models a failed transaction (thrown, state rolled back); the
LLM outcome is the oracle parameter. -/
def deduplicateAndMergeWorkAchievements (db : DBState)
    (userId workHistoryId : Nat) (llm : LLMOutcome) (txOk : Bool)
    (dryRun : Bool) : Except Str WorkAchievementDeduplicationResult × DBState :=
  match findWorkHistory db workHistoryId userId with
  | none => (Except.error ("Work history not found or access denied").toList, db)
  | some _ =>
    let achievements := (achievementsFor db workHistoryId).map rowToRecord
    if achievements.length ≤ 1 then
      (Except.ok ⟨true,
        ("No deduplication needed - this work history has 1 or fewer achievements.").toList,
        achievements.length, achievements.length, 0, 0, []⟩, db)
    else
      let dedup := removeExactDuplicateWorkAchievements achievements
      if dedup.1.length ≤ 1 then
        let result : WorkAchievementDeduplicationResult :=
          ⟨true,
            ("Removed ").toList ++ Nat.toDigits 10 dedup.2 ++
              (" exact duplicates. No similar achievements to merge.").toList,
            achievements.length, dedup.1.length, dedup.2, 0,
            dedup.1.map (fun a => ⟨a.description, PreviewAction.kept⟩)⟩
        if !dryRun && decide (0 < dedup.2) then
          if txOk then
            let duplicateIds := (achievements.filter
              (fun a => !dedup.1.any (fun u => u.id = a.id))).map (fun a => a.id)
            let remaining := db.workAchievements.filter
              (fun row => ¬(row.id ∈ duplicateIds ∧
                row.workHistoryId = workHistoryId))
            (Except.ok result, { db with workAchievements := remaining })
          else (Except.error ("transaction failed").toList, db)
        else (Except.ok result, db)
      else
        let mergeResult := mergeWorkAchievementsWithAI dedup.1 llm
        if dryRun then
          (Except.ok ⟨true,
            ("Preview of work achievement deduplication and merge process").toList,
            achievements.length, mergeResult.finalAchievements.length,
            dedup.2, mergeResult.groupsMerged,
            mergeResult.finalAchievements.map
              (fun d => ⟨d, PreviewAction.merged⟩)⟩, db)
        else
          if txOk then
            (Except.ok ⟨true,
              ("Successfully deduplicated and merged work achievements. Removed ").toList ++
                Nat.toDigits 10 dedup.2 ++
                (" exact duplicates and merged ").toList ++
                Nat.toDigits 10 mergeResult.groupsMerged ++
                (" groups of similar achievements.").toList,
              achievements.length, mergeResult.finalAchievements.length,
              dedup.2, mergeResult.groupsMerged,
              mergeResult.finalAchievements.map
                (fun d => ⟨d, PreviewAction.final⟩)⟩,
              let remaining := db.workAchievements.filter
                (fun a => a.workHistoryId ≠ workHistoryId)
              { db with
                workAchievements := remaining ++ mkAchievementRows
                  workHistoryId db.nextId mergeResult.finalAchievements,
                nextId := db.nextId + mergeResult.finalAchievements.length })
          else (Except.error ("transaction failed").toList, db)

/-- Claim C8: with `dryRun = true` the function performs no database
writes — the state after the call (in particular every stored
WorkAchievement row) equals the state before, whatever the user, work
history, LLM outcome and transaction behaviour; only counts and a preview
are returned. -/
theorem deduplicateAndMerge_dryRun_pure (db : DBState)
    (userId workHistoryId : Nat) (llm : LLMOutcome) (txOk : Bool) :
    (deduplicateAndMergeWorkAchievements db userId workHistoryId llm txOk
      true).2 = db := by
  cases hfind : findWorkHistory db workHistoryId userId with
  | none =>
    unfold deduplicateAndMergeWorkAchievements
    rw [hfind]
  | some wh =>
    unfold deduplicateAndMergeWorkAchievements
    rw [hfind]
    simp only [Bool.not_true, Bool.false_and]
    split_ifs <;> simp_all

/-- Claim C10: when the work history belongs to the user and has at most
one achievement, the call returns immediately with success, both counts
equal to the achievement count, zero duplicates removed, zero groups
merged and an empty preview, independently of the LLM oracle, the
transaction behaviour and the dry-run flag (so the LLM is never consulted
and the database is unchanged). -/
theorem deduplicateAndMerge_trivial (db : DBState) (userId workHistoryId : Nat)
    (hfound : findWorkHistory db workHistoryId userId ≠ none)
    (hcount : (achievementsFor db workHistoryId).length ≤ 1) :
    ∀ llm txOk dryRun,
      deduplicateAndMergeWorkAchievements db userId workHistoryId llm txOk
          dryRun =
        (Except.ok ⟨true,
          ("No deduplication needed - this work history has 1 or fewer achievements.").toList,
          (achievementsFor db workHistoryId).length,
          (achievementsFor db workHistoryId).length, 0, 0, []⟩, db) := by
  intro llm txOk dryRun
  cases hfind : findWorkHistory db workHistoryId userId with
  | none => exact absurd hfind hfound
  | some wh =>
    unfold deduplicateAndMergeWorkAchievements
    rw [hfind]
    simp only [List.length_map]
    rw [if_pos hcount]

/-- Witness for claim C10: the concrete database has one achievement for
work history 10, and the call returns the trivial result unchanged. -/
theorem deduplicateAndMerge_trivial_witness :
    deduplicateAndMergeWorkAchievements exDB 1 10 LLMOutcome.failure true
        false =
      (Except.ok ⟨true,
        ("No deduplication needed - this work history has 1 or fewer achievements.").toList,
        1, 1, 0, 0, []⟩, exDB) := by
  have h := deduplicateAndMerge_trivial exDB 1 10 (by decide) (by decide)
    LLMOutcome.failure true false
  have hc : (achievementsFor exDB 10).length = 1 := by decide
  rw [h, hc]

/-- The `mergedDetails` input of `mergeWorkHistoryRecords`, with its date
strings already parsed (`new Date(...)`). -/
structure MergedDetails where
  companyName : Str
  jobTitle : Str
  startDate : JSDate
  endDate : Option JSDate
deriving DecidableEq

/-- The `mergedRecord` part of the return value of
`mergeWorkHistoryRecords`. -/
structure MergedRecordInfo where
  id : Nat
  companyName : Str
  jobTitle : Str
  startDate : JSDate
  endDate : Option JSDate
deriving DecidableEq

/-- The return value of `mergeWorkHistoryRecords`. -/
structure MergeWHResult where
  success : Bool
  message : Str
  mergedRecord : MergedRecordInfo
deriving DecidableEq

/-- Transaction step 1: update the primary row with the merged details. -/
def mergeUpdatedHistories (db : DBState) (primaryRecordId : Nat)
    (details : MergedDetails) : List WorkHistoryRow :=
  db.workHistories.map (fun wh =>
    if wh.id = primaryRecordId then
      { wh with
          companyName := details.companyName
          jobTitle := details.jobTitle
          startDate := details.startDate
          endDate := details.endDate }
    else wh)

/-- Transaction step 2: the secondary achievement descriptions not already
present on the primary record (pre-transaction reads). -/
def mergeUniqueNewAchievements (db : DBState) (primaryRecordId : Nat)
    (secondaryRecords : List WorkHistoryRow) : List Str :=
  (secondaryRecords.flatMap
      (fun r => (achievementsFor db r.id).map (fun a => a.description))).filter
    (fun d => d ∉ (achievementsFor db primaryRecordId).map
      (fun a => a.description))

/-- Transaction step 3: each user skill attached to a secondary record is
re-pointed at the primary, unless the primary already has its skillId, in
which case it is deleted; other skills are untouched. -/
def mergeMovedSkills (db : DBState) (primaryRecordId : Nat)
    (secondaryRecords : List WorkHistoryRow) : List UserSkillRow :=
  db.userSkills.filterMap (fun s =>
    match s.workHistoryId with
    | some rid =>
        if rid ∈ secondaryRecords.map (fun r => r.id) then
          if s.skillId ∈ (userSkillsFor db primaryRecordId).map
              (fun t => t.skillId) then none
          else some { s with workHistoryId := some primaryRecordId }
        else some s
    | none => some s)

/-- The ids of the work-history rows deleted by transaction step 4
(`deleteMany({where: {id: {in: secondaryRecordIds}, userId}})`). -/
def mergeDeletedIds (db : DBState) (userId primaryRecordId : Nat)
    (secondaryRecordIds : List Nat) (details : MergedDetails) : List Nat :=
  ((mergeUpdatedHistories db primaryRecordId details).filter
    (fun wh => wh.id ∈ secondaryRecordIds ∧ wh.userId = userId)).map
    (fun wh => wh.id)

/-- The `$transaction` body of `mergeWorkHistoryRecords` (lines 638-709) as
one state transformation, using the relation data fetched before the
transaction: update the primary row; create copies on the primary of every
secondary achievement description not already on it (a `createMany` of an
empty list is a no-op, so its length guard is dropped); move or delete the
secondary user skills; delete the secondary work-history rows, which
cascades per the Prisma schema (achievements of deleted rows removed,
`workHistoryId` of skills still pointing at them set to null). -/
def applyMergeTx (db : DBState) (userId primaryRecordId : Nat)
    (secondaryRecordIds : List Nat) (details : MergedDetails)
    (secondaryRecords : List WorkHistoryRow) : DBState :=
  let deletedIds := mergeDeletedIds db userId primaryRecordId
    secondaryRecordIds details
  ⟨(mergeUpdatedHistories db primaryRecordId details).filter
      (fun wh => ¬(wh.id ∈ secondaryRecordIds ∧ wh.userId = userId)),
   (db.workAchievements ++ mkAchievementRows primaryRecordId db.nextId
      (mergeUniqueNewAchievements db primaryRecordId secondaryRecords)).filter
      (fun a => a.workHistoryId ∉ deletedIds),
   (mergeMovedSkills db primaryRecordId secondaryRecords).map (fun s =>
      match s.workHistoryId with
      | some rid =>
          if rid ∈ deletedIds then { s with workHistoryId := none } else s
      | none => s),
   db.nextId +
     (mergeUniqueNewAchievements db primaryRecordId secondaryRecords).length⟩

/-- The `findMany` at the start of `mergeWorkHistoryRecords`: all records
with one of the requested ids that belong to the user. -/
def mergeFetchedHistories (db : DBState) (userId primaryRecordId : Nat)
    (secondaryRecordIds : List Nat) : List WorkHistoryRow :=
  db.workHistories.filter
    (fun wh => wh.id ∈ primaryRecordId :: secondaryRecordIds ∧
      wh.userId = userId)

/-- The `mergedRecord` reported back: the primary id with the merged
details (the failure path and the updated primary coincide on these
fields). -/
def mergeReportedRecord (primaryRecordId : Nat) (details : MergedDetails) :
    MergedRecordInfo :=
  ⟨primaryRecordId, details.companyName, details.jobTitle,
    details.startDate, details.endDate⟩

/-- The value returned from the `catch` block of `mergeWorkHistoryRecords`. -/
def mergeFailResult (primaryRecordId : Nat) (details : MergedDetails) :
    MergeWHResult :=
  ⟨false, ("Failed to merge work history records").toList,
    mergeReportedRecord primaryRecordId details⟩

/-- `mergeWorkHistoryRecords` (lines 582-730): fetch all named records of
the user; fail unless every requested id was found; find the primary
record; run the transaction. The whole body sits in a `try`/`catch`, so
every failure (missing records, missing primary, failed transaction) is
reported as `success = false` with a failure message and the state left
unchanged — the function never throws. -/
def mergeWorkHistoryRecords (db : DBState) (userId primaryRecordId : Nat)
    (secondaryRecordIds : List Nat) (details : MergedDetails) (txOk : Bool) :
    MergeWHResult × DBState :=
  if (mergeFetchedHistories db userId primaryRecordId
      secondaryRecordIds).length ≠
      (primaryRecordId :: secondaryRecordIds).length then
    (mergeFailResult primaryRecordId details, db)
  else
    match (mergeFetchedHistories db userId primaryRecordId
        secondaryRecordIds).find? (fun wh => wh.id = primaryRecordId) with
    | none => (mergeFailResult primaryRecordId details, db)
    | some _ =>
        if txOk then
          (⟨true,
            ("Successfully merged ").toList ++
              Nat.toDigits 10 secondaryRecordIds.length ++
              (" work history records").toList,
            mergeReportedRecord primaryRecordId details⟩,
            applyMergeTx db userId primaryRecordId secondaryRecordIds details
              ((mergeFetchedHistories db userId primaryRecordId
                secondaryRecordIds).filter
                (fun wh => wh.id ∈ secondaryRecordIds)))
        else (mergeFailResult primaryRecordId details, db)

/-- The success-path effect claimed by C5: primary updated with the merged
details, no record of the user with a secondary id left, every
non-duplicate secondary achievement description now stored on the primary,
every non-duplicate secondary skill re-pointed at the primary, and no skill
still attached to a secondary record. -/
def MergeSuccessState (db db2 : DBState) (userId primaryRecordId : Nat)
    (secondaryRecordIds : List Nat) (details : MergedDetails) : Prop :=
  (∀ wh ∈ db2.workHistories, wh.id = primaryRecordId →
    wh.companyName = details.companyName ∧ wh.jobTitle = details.jobTitle ∧
    wh.startDate = details.startDate ∧ wh.endDate = details.endDate) ∧
  (∀ wh ∈ db2.workHistories, wh.userId = userId →
    wh.id ∉ secondaryRecordIds) ∧
  (∀ rid ∈ secondaryRecordIds, ∀ a ∈ achievementsFor db rid,
    a.description ∉ (achievementsFor db primaryRecordId).map
      (fun b => b.description) →
    ∃ b ∈ db2.workAchievements, b.workHistoryId = primaryRecordId ∧
      b.description = a.description) ∧
  (∀ s ∈ db.userSkills, ∀ rid ∈ secondaryRecordIds,
    s.workHistoryId = some rid →
    s.skillId ∉ (userSkillsFor db primaryRecordId).map (fun t => t.skillId) →
    ∃ s2 ∈ db2.userSkills, s2.id = s.id ∧ s2.skillId = s.skillId ∧
      s2.workHistoryId = some primaryRecordId) ∧
  (∀ s2 ∈ db2.userSkills, ∀ rid ∈ secondaryRecordIds,
    s2.workHistoryId ≠ some rid)

theorem mkAchievementRows_exists (w : Nat) (ds : List Str) :
    ∀ s, ∀ d ∈ ds, ∃ r ∈ mkAchievementRows w s ds,
      r.description = d ∧ r.workHistoryId = w := by
  induction ds with
  | nil => intro s d hd; cases hd
  | cons e ds ih =>
    intro s d hd
    rcases List.mem_cons.mp hd with rfl | hd
    · exact ⟨⟨s, w, d, s⟩, List.mem_cons_self _ _, rfl, rfl⟩
    · obtain ⟨r, hr, h1, h2⟩ := ih (s + 1) d hd
      exact ⟨r, List.mem_cons_of_mem _ hr, h1, h2⟩

/-- Pigeonhole behind the length check of `mergeWorkHistoryRecords`: since
stored work-history ids are distinct (primary key), the fetch returning as
many rows as requested ids forces the requested ids to be distinct and each
of them to be matched by a fetched row. -/
theorem filter_ids_cover (rows : List WorkHistoryRow) (ids : List Nat)
    (u : Nat) (hnd : (rows.map (fun wh => wh.id)).Nodup)
    (hlen : (rows.filter (fun wh => wh.id ∈ ids ∧ wh.userId = u)).length =
      ids.length) :
    ids.Nodup ∧ ∀ i ∈ ids,
      ∃ row ∈ rows.filter (fun wh => wh.id ∈ ids ∧ wh.userId = u),
        row.id = i := by
  have hsub : List.Sublist ((rows.filter
      (fun wh => wh.id ∈ ids ∧ wh.userId = u)).map (fun wh => wh.id))
      (rows.map (fun wh => wh.id)) :=
    (List.filter_sublist rows).map _
  have hnd2 : ((rows.filter (fun wh => wh.id ∈ ids ∧ wh.userId = u)).map
      (fun wh => wh.id)).Nodup := List.Nodup.sublist hsub hnd
  have hmem : ∀ i ∈ (rows.filter (fun wh => wh.id ∈ ids ∧ wh.userId = u)).map
      (fun wh => wh.id), i ∈ ids := by
    intro i hi
    obtain ⟨row, hrow, rfl⟩ := List.mem_map.mp hi
    have := (List.mem_filter.mp hrow).2
    simp only [decide_eq_true_eq] at this
    exact this.1
  have hsubperm := List.subperm_of_subset hnd2 hmem
  have hlen2 : ids.length ≤ ((rows.filter
      (fun wh => wh.id ∈ ids ∧ wh.userId = u)).map (fun wh => wh.id)).length := by
    rw [List.length_map, hlen]
  have hperm := hsubperm.perm_of_length_le hlen2
  refine ⟨hperm.nodup_iff.mp hnd2, ?_⟩
  intro i hi
  obtain ⟨row, hrow, hid⟩ := List.mem_map.mp (hperm.mem_iff.mpr hi)
  exact ⟨row, hrow, hid⟩

theorem mergeDeletedIds_subset (db : DBState) (userId primaryRecordId : Nat)
    (secondaryRecordIds : List Nat) (details : MergedDetails) :
    ∀ i ∈ mergeDeletedIds db userId primaryRecordId secondaryRecordIds
      details, i ∈ secondaryRecordIds := by
  intro i hi
  obtain ⟨wh, hwh, rfl⟩ := List.mem_map.mp hi
  have := (List.mem_filter.mp hwh).2
  simp only [decide_eq_true_eq] at this
  exact this.1

theorem subset_mergeDeletedIds (db : DBState) (userId primaryRecordId : Nat)
    (secondaryRecordIds : List Nat) (details : MergedDetails)
    (hpid : primaryRecordId ∉ secondaryRecordIds)
    (hrows : ∀ rid ∈ secondaryRecordIds, ∃ row ∈ db.workHistories,
      row.id = rid ∧ row.userId = userId) :
    ∀ rid ∈ secondaryRecordIds,
      rid ∈ mergeDeletedIds db userId primaryRecordId secondaryRecordIds
        details := by
  intro rid hrid
  obtain ⟨row, hrow, hid, huser⟩ := hrows rid hrid
  have hne : ¬ row.id = primaryRecordId := by
    rw [hid]
    intro h
    exact hpid (h ▸ hrid)
  have hrow1 : row ∈ mergeUpdatedHistories db primaryRecordId details := by
    rw [mergeUpdatedHistories]
    exact List.mem_map.mpr ⟨row, hrow, by simp [hne]⟩
  rw [mergeDeletedIds]
  exact List.mem_map.mpr ⟨row,
    List.mem_filter.mpr ⟨hrow1, by simp [hid, hrid, huser]⟩, hid⟩

theorem applyMergeTx_primary (db : DBState) (userId primaryRecordId : Nat)
    (secondaryRecordIds : List Nat) (details : MergedDetails)
    (secondaryRecords : List WorkHistoryRow) :
    ∀ wh ∈ (applyMergeTx db userId primaryRecordId secondaryRecordIds details
        secondaryRecords).workHistories, wh.id = primaryRecordId →
      wh.companyName = details.companyName ∧ wh.jobTitle = details.jobTitle ∧
      wh.startDate = details.startDate ∧ wh.endDate = details.endDate := by
  intro wh hwh hid
  simp only [applyMergeTx] at hwh
  have hwh1 := (List.mem_filter.mp hwh).1
  rw [mergeUpdatedHistories] at hwh1
  obtain ⟨wh0, hwh0, heq⟩ := List.mem_map.mp hwh1
  by_cases h0 : wh0.id = primaryRecordId
  · rw [if_pos h0] at heq
    subst heq
    exact ⟨rfl, rfl, rfl, rfl⟩
  · rw [if_neg h0] at heq
    subst heq
    exact absurd hid h0

theorem applyMergeTx_secondary_deleted (db : DBState)
    (userId primaryRecordId : Nat) (secondaryRecordIds : List Nat)
    (details : MergedDetails) (secondaryRecords : List WorkHistoryRow) :
    ∀ wh ∈ (applyMergeTx db userId primaryRecordId secondaryRecordIds details
        secondaryRecords).workHistories, wh.userId = userId →
      wh.id ∉ secondaryRecordIds := by
  intro wh hwh huser hmem
  simp only [applyMergeTx] at hwh
  have := (List.mem_filter.mp hwh).2
  simp only [decide_eq_true_eq] at this
  exact this ⟨hmem, huser⟩

theorem applyMergeTx_achievements (db : DBState) (userId primaryRecordId : Nat)
    (secondaryRecordIds : List Nat) (details : MergedDetails)
    (secondaryRecords : List WorkHistoryRow)
    (hpid : primaryRecordId ∉ secondaryRecordIds)
    (hsec : ∀ rid ∈ secondaryRecordIds,
      rid ∈ secondaryRecords.map (fun r => r.id)) :
    ∀ rid ∈ secondaryRecordIds, ∀ a ∈ achievementsFor db rid,
      a.description ∉ (achievementsFor db primaryRecordId).map
        (fun b => b.description) →
      ∃ b ∈ (applyMergeTx db userId primaryRecordId secondaryRecordIds details
          secondaryRecords).workAchievements,
        b.workHistoryId = primaryRecordId ∧
        b.description = a.description := by
  intro rid hrid a ha hnotex
  have hdesc : a.description ∈ mergeUniqueNewAchievements db primaryRecordId
      secondaryRecords := by
    rw [mergeUniqueNewAchievements, List.mem_filter]
    constructor
    · rw [List.mem_flatMap]
      obtain ⟨r, hr, hrid2⟩ := List.mem_map.mp (hsec rid hrid)
      exact ⟨r, hr, List.mem_map.mpr ⟨a, by rw [hrid2]; exact ha, rfl⟩⟩
    · simpa using hnotex
  obtain ⟨b, hb, hbdesc, hbw⟩ := mkAchievementRows_exists primaryRecordId _
    db.nextId a.description hdesc
  refine ⟨b, ?_, hbw, hbdesc⟩
  simp only [applyMergeTx]
  rw [List.mem_filter]
  refine ⟨List.mem_append.mpr (Or.inr hb), ?_⟩
  simp only [decide_eq_true_eq, hbw]
  intro hcon
  exact hpid (mergeDeletedIds_subset db userId primaryRecordId
    secondaryRecordIds details primaryRecordId hcon)

theorem applyMergeTx_skills_moved (db : DBState) (userId primaryRecordId : Nat)
    (secondaryRecordIds : List Nat) (details : MergedDetails)
    (secondaryRecords : List WorkHistoryRow)
    (hpid : primaryRecordId ∉ secondaryRecordIds)
    (hsec : ∀ rid ∈ secondaryRecordIds,
      rid ∈ secondaryRecords.map (fun r => r.id)) :
    ∀ s ∈ db.userSkills, ∀ rid ∈ secondaryRecordIds,
      s.workHistoryId = some rid →
      s.skillId ∉ (userSkillsFor db primaryRecordId).map (fun t => t.skillId) →
      ∃ s2 ∈ (applyMergeTx db userId primaryRecordId secondaryRecordIds
          details secondaryRecords).userSkills,
        s2.id = s.id ∧ s2.skillId = s.skillId ∧
        s2.workHistoryId = some primaryRecordId := by
  intro s hs rid hrid hw hskill
  have hs1 : ({ s with workHistoryId := some primaryRecordId } :
      UserSkillRow) ∈ mergeMovedSkills db primaryRecordId secondaryRecords := by
    rw [mergeMovedSkills, List.mem_filterMap]
    refine ⟨s, hs, ?_⟩
    simp only [hw]
    rw [if_pos (hsec rid hrid), if_neg hskill]
  have hpd : primaryRecordId ∉ mergeDeletedIds db userId primaryRecordId
      secondaryRecordIds details := fun hc =>
    hpid (mergeDeletedIds_subset db userId primaryRecordId secondaryRecordIds
      details primaryRecordId hc)
  refine ⟨{ s with workHistoryId := some primaryRecordId }, ?_, rfl, rfl, rfl⟩
  simp only [applyMergeTx]
  exact List.mem_map.mpr
    ⟨{ s with workHistoryId := some primaryRecordId }, hs1, by simp [hpd]⟩

theorem applyMergeTx_no_secondary_skills (db : DBState)
    (userId primaryRecordId : Nat) (secondaryRecordIds : List Nat)
    (details : MergedDetails) (secondaryRecords : List WorkHistoryRow)
    (hpid : primaryRecordId ∉ secondaryRecordIds)
    (hrows : ∀ rid ∈ secondaryRecordIds, ∃ row ∈ db.workHistories,
      row.id = rid ∧ row.userId = userId) :
    ∀ s2 ∈ (applyMergeTx db userId primaryRecordId secondaryRecordIds details
        secondaryRecords).userSkills, ∀ rid ∈ secondaryRecordIds,
      s2.workHistoryId ≠ some rid := by
  intro s2 hs2 rid hrid hcon
  simp only [applyMergeTx] at hs2
  obtain ⟨t, ht, heq⟩ := List.mem_map.mp hs2
  cases hwt : t.workHistoryId with
  | none =>
    simp only [hwt] at heq
    subst heq
    rw [hcon] at hwt
    cases hwt
  | some r =>
    simp only [hwt] at heq
    by_cases hr : r ∈ mergeDeletedIds db userId primaryRecordId
        secondaryRecordIds details
    · rw [if_pos hr] at heq
      subst heq
      cases hcon
    · rw [if_neg hr] at heq
      subst heq
      rw [hcon] at hwt
      injection hwt with hwt2
      exact hr (hwt2 ▸ subset_mergeDeletedIds db userId primaryRecordId
        secondaryRecordIds details hpid hrows rid hrid)

theorem applyMergeTx_success_state (db : DBState)
    (userId primaryRecordId : Nat) (secondaryRecordIds : List Nat)
    (details : MergedDetails) (secondaryRecords : List WorkHistoryRow)
    (hpid : primaryRecordId ∉ secondaryRecordIds)
    (hsec : ∀ rid ∈ secondaryRecordIds,
      rid ∈ secondaryRecords.map (fun r => r.id))
    (hrows : ∀ rid ∈ secondaryRecordIds, ∃ row ∈ db.workHistories,
      row.id = rid ∧ row.userId = userId) :
    MergeSuccessState db (applyMergeTx db userId primaryRecordId
      secondaryRecordIds details secondaryRecords) userId primaryRecordId
      secondaryRecordIds details :=
  ⟨applyMergeTx_primary db userId primaryRecordId secondaryRecordIds details
      secondaryRecords,
   applyMergeTx_secondary_deleted db userId primaryRecordId
      secondaryRecordIds details secondaryRecords,
   applyMergeTx_achievements db userId primaryRecordId secondaryRecordIds
      details secondaryRecords hpid hsec,
   applyMergeTx_skills_moved db userId primaryRecordId secondaryRecordIds
      details secondaryRecords hpid hsec,
   applyMergeTx_no_secondary_skills db userId primaryRecordId
      secondaryRecordIds details secondaryRecords hpid hrows⟩

/-- Claim C5: `mergeWorkHistoryRecords` never throws (it is a total
function into a plain result) and is atomic: whenever it reports
`success = false` — in particular whenever any database operation in the
transaction fails — the database is unchanged, and when it reports
`success = true` the primary record carries the merged details, no record
of the user with a secondary id remains, the non-duplicate secondary
achievement descriptions are stored on the primary, the non-duplicate
secondary skills point at the primary, and no skill is still attached to a
secondary record. The hypothesis is the primary-key invariant that stored
work-history ids are distinct. -/
theorem mergeWorkHistoryRecords_spec (db : DBState)
    (userId primaryRecordId : Nat) (secondaryRecordIds : List Nat)
    (details : MergedDetails) (txOk : Bool)
    (hids : (db.workHistories.map (fun wh => wh.id)).Nodup) :
    ((mergeWorkHistoryRecords db userId primaryRecordId secondaryRecordIds
        details txOk).1.success = false →
      (mergeWorkHistoryRecords db userId primaryRecordId secondaryRecordIds
        details txOk).2 = db) ∧
    (txOk = false →
      (mergeWorkHistoryRecords db userId primaryRecordId secondaryRecordIds
        details txOk).1.success = false) ∧
    ((mergeWorkHistoryRecords db userId primaryRecordId secondaryRecordIds
        details txOk).1.success = true →
      MergeSuccessState db (mergeWorkHistoryRecords db userId primaryRecordId
        secondaryRecordIds details txOk).2 userId primaryRecordId
        secondaryRecordIds details) := by
  unfold mergeWorkHistoryRecords
  by_cases hlen : (mergeFetchedHistories db userId primaryRecordId
      secondaryRecordIds).length =
      (primaryRecordId :: secondaryRecordIds).length
  · rw [if_neg (by simpa using hlen)]
    cases hfind : (mergeFetchedHistories db userId primaryRecordId
        secondaryRecordIds).find? (fun wh => wh.id = primaryRecordId) with
    | none =>
      exact ⟨fun _ => rfl, fun _ => rfl, fun h => absurd h Bool.false_ne_true⟩
    | some wh =>
      cases txOk with
      | false =>
        exact ⟨fun _ => rfl, fun _ => rfl,
          fun h => absurd h Bool.false_ne_true⟩
      | true =>
        refine ⟨fun h => absurd h.symm Bool.false_ne_true,
          fun h => absurd h.symm Bool.false_ne_true, fun _ => ?_⟩
        obtain ⟨hnodup, hcov⟩ := filter_ids_cover db.workHistories
          (primaryRecordId :: secondaryRecordIds) userId hids hlen
        have hpid : primaryRecordId ∉ secondaryRecordIds :=
          (List.nodup_cons.mp hnodup).1
        have hsec : ∀ rid ∈ secondaryRecordIds,
            rid ∈ ((mergeFetchedHistories db userId primaryRecordId
              secondaryRecordIds).filter
              (fun wh => wh.id ∈ secondaryRecordIds)).map (fun r => r.id) := by
          intro rid hrid
          obtain ⟨row, hrow, hrowid⟩ := hcov rid
            (List.mem_cons_of_mem _ hrid)
          exact List.mem_map.mpr ⟨row,
            List.mem_filter.mpr ⟨hrow, by simp [hrowid, hrid]⟩, hrowid⟩
        have hrows : ∀ rid ∈ secondaryRecordIds, ∃ row ∈ db.workHistories,
            row.id = rid ∧ row.userId = userId := by
          intro rid hrid
          obtain ⟨row, hrow, hrowid⟩ := hcov rid
            (List.mem_cons_of_mem _ hrid)
          have h2 := List.mem_filter.mp hrow
          have h3 := h2.2
          simp only [decide_eq_true_eq] at h3
          exact ⟨row, h2.1, hrowid, h3.2⟩
        exact applyMergeTx_success_state db userId primaryRecordId
          secondaryRecordIds details _ hpid hsec hrows
  · rw [if_pos hlen]
    exact ⟨fun _ => rfl, fun _ => rfl, fun h => absurd h Bool.false_ne_true⟩

/-- A concrete two-record database for the merge witness: primary record
10 and secondary record 11 both belong to user 1; the secondary carries an
achievement and a skill. -/
def exMergeDB : DBState :=
  ⟨[⟨10, 1, "Acme".toList, "Dev".toList, exDate, none⟩,
    ⟨11, 1, "Acme Inc".toList, "Dev".toList, exDate, none⟩],
   [⟨20, 10, "Kept A".toList, 20⟩, ⟨21, 11, "From secondary".toList, 21⟩],
   [⟨30, 1, 7, some 11⟩],
   100⟩

/-- Concrete merged details for the merge witness. -/
def exDetails : MergedDetails :=
  ⟨"Acme Corp".toList, "Developer".toList, exDate, none⟩

/-- Witness for claim C5: merging record 11 into record 10 on the concrete
database succeeds and establishes the claimed merged state. -/
theorem mergeWorkHistoryRecords_witness :
    (mergeWorkHistoryRecords exMergeDB 1 10 [11] exDetails true).1.success =
      true ∧
    MergeSuccessState exMergeDB
      (mergeWorkHistoryRecords exMergeDB 1 10 [11] exDetails true).2 1 10 [11]
      exDetails :=
  ⟨by decide,
    (mergeWorkHistoryRecords_spec exMergeDB 1 10 [11] exDetails true
      (by decide)).2.2 (by decide)⟩

/-- One entry of the `workExperience` input of `processWorkExperience`
(lines 733-744); the achievement/skill arrays are modelled as (possibly
empty) lists of strings. -/
structure ParsedWorkExperience where
  company : Option Str
  jobTitle : Option Str
  startDate : Option JSDate
  endDate : Option JSDate
  achievements : List Str
  skills : List Str

/-- A pre-existing work-history record as fetched (with its achievements
included) at the start of `processWorkExperience`. -/
structure ExistingWorkHistoryRec where
  companyName : Str
  startDate : JSDate
  endDate : Option JSDate
  achievements : List Str

/-- The external calls `processWorkExperience` makes, as oracles:
`llmMerge` is `mergeWorkAchievements` (the LLM merge of existing and new
achievement lists), `normalize` is `SkillNormalizationService
.normalizeSkills` (returning base skill ids), and `existingUserSkill` is
the per-skill `userSkill.findFirst` (`none` when the user lacks the skill,
otherwise the found row's optional `workHistoryId`). -/
structure ProcessOracles where
  llmMerge : List Str → List Str → List Str
  normalize : List Str → List Nat
  existingUserSkill : Nat → Option (Option Nat)

/-- The observable pipeline events of `processWorkExperience`: the match
scan, the LLM achievement merge, work-history row writes, achievement row
writes, the skill-normalization call, and user-skill row writes. -/
inductive PEvent
  | matchExisting
  | llmMergeAchievements
  | persistWorkHistory
  | persistAchievement
  | normalizeSkills
  | persistSkill
deriving DecidableEq

/-- The user-skill writes made for one normalized skill (lines 850-885):
a skill the user already has linked to another work history is skipped;
otherwise the row is updated or created. -/
def skillEvents (o : ProcessOracles) (skillId : Nat) : List PEvent :=
  match o.existingUserSkill skillId with
  | some (some _) => []
  | some none => [PEvent.persistSkill]
  | none => [PEvent.persistSkill]

/-- The event trace of one iteration of the `processWorkExperience` loop
(lines 753-887): scan the existing records for a match; for a matched
record merge the achievements with the LLM, update the record and create
the merged achievements; for an unmatched record create it and its
achievements; finally, when the entry lists skills, normalize them and
write the user-skill rows. -/
def processEntryTrace (existing : List ExistingWorkHistoryRec)
    (o : ProcessOracles) (exp : ParsedWorkExperience) : List PEvent :=
  PEvent.matchExisting ::
    ((match existing.find? (fun e =>
        doWorkHistoryRecordsMatch ⟨e.companyName, e.startDate, e.endDate⟩
          ⟨exp.company, exp.startDate, exp.endDate⟩) with
      | some m =>
          PEvent.llmMergeAchievements :: PEvent.persistWorkHistory ::
            (o.llmMerge m.achievements exp.achievements).map
              (fun _ => PEvent.persistAchievement)
      | none =>
          PEvent.persistWorkHistory ::
            exp.achievements.map (fun _ => PEvent.persistAchievement)) ++
      (if 0 < exp.skills.length then
        PEvent.normalizeSkills ::
          (o.normalize (exp.skills.filter (fun s => jsTrim s ≠ []))).flatMap
            (skillEvents o)
      else []))

/-- The event trace of `processWorkExperience` over a batch: the existing
records are fetched once up front, and each entry is processed in turn
against that snapshot. -/
def processWorkExperienceTrace (workExperience : List ParsedWorkExperience)
    (existing : List ExistingWorkHistoryRec) (o : ProcessOracles) :
    List PEvent :=
  workExperience.flatMap (processEntryTrace existing o)

/-- The stage of each event in the spec's claimed pipeline order
(match → normalize → dedupe/merge → persist). -/
def specStageRank : PEvent → Nat
  | .matchExisting => 0
  | .normalizeSkills => 1
  | .llmMergeAchievements => 2
  | .persistWorkHistory => 3
  | .persistAchievement => 3
  | .persistSkill => 3

/-- Whether a trace's events occur in nondecreasing spec stage order. -/
def specStageOrderedB : List PEvent → Bool
  | [] => true
  | a :: rest =>
      rest.all (fun b => specStageRank a ≤ specStageRank b) &&
        specStageOrderedB rest

/-- A concrete existing record that entry `exEntry` matches. -/
def exExistingRec : ExistingWorkHistoryRec :=
  ⟨"A co".toList, exDate, none, ["Old ach".toList]⟩

/-- A concrete parsed entry with one achievement and one skill. -/
def exEntry : ParsedWorkExperience :=
  ⟨some ("A co").toList, some ("Dev").toList, some exDate, none,
    ["New ach".toList], ["TS".toList]⟩

/-- Concrete oracles: the LLM returns the new achievements, normalization
returns one base skill id the user does not yet have. -/
def exOracles : ProcessOracles :=
  ⟨fun _ bs => bs, fun _ => [5], fun _ => none⟩

/-- The Levenshtein distance of a string to itself is zero. -/
theorem levenshtein_self (s : Str) : levenshtein s s = 0 := by
  induction s with
  | nil => simp [levenshtein]
  | cons c cs ih => simp [levenshtein, ih]

/-- The concrete entry matches the concrete existing record: identical
company names and dates. -/
theorem exEntry_matches : doWorkHistoryRecordsMatch
    ⟨['A', ' ', 'c', 'o'], exDate, none⟩
    ⟨some ['A', ' ', 'c', 'o'], some exDate, none⟩ = true := by
  simp [doWorkHistoryRecordsMatch, levenshtein_self]

/-- Claim C6 counterexample: for one matching entry carrying an achievement
and a skill, the trace is match, LLM achievement merge, work-history
persistence, achievement persistence, skill normalization, skill
persistence — skill normalization occurs after the merge and after
achievement persistence, so the claimed match → normalize → dedupe →
merge → persist stage order fails. -/
theorem processWorkExperience_order_counterexample :
    processWorkExperienceTrace [exEntry] [exExistingRec] exOracles =
      [PEvent.matchExisting, PEvent.llmMergeAchievements,
       PEvent.persistWorkHistory, PEvent.persistAchievement,
       PEvent.normalizeSkills, PEvent.persistSkill] ∧
    specStageOrderedB (processWorkExperienceTrace [exEntry] [exExistingRec]
      exOracles) = false := by
  have htrace : processWorkExperienceTrace [exEntry] [exExistingRec]
      exOracles =
      [PEvent.matchExisting, PEvent.llmMergeAchievements,
       PEvent.persistWorkHistory, PEvent.persistAchievement,
       PEvent.normalizeSkills, PEvent.persistSkill] := by
    simp [processWorkExperienceTrace, processEntryTrace, List.find?,
      exOracles, exEntry, exExistingRec, skillEvents, exEntry_matches]
  exact ⟨htrace, by rw [htrace]; decide⟩

/-- The stage of each event in the order the code actually executes within
one entry. -/
def codeStageRank : PEvent → Nat
  | .matchExisting => 0
  | .llmMergeAchievements => 1
  | .persistWorkHistory => 2
  | .persistAchievement => 2
  | .normalizeSkills => 3
  | .persistSkill => 4

theorem skillEvents_mem (o : ProcessOracles) (sid : Nat) :
    ∀ e ∈ skillEvents o sid, e = PEvent.persistSkill := by
  intro e he
  unfold skillEvents at he
  cases h : o.existingUserSkill sid with
  | none =>
    rw [h] at he
    simpa using he
  | some v =>
    cases v with
    | none => rw [h] at he; simpa using he
    | some w => rw [h] at he; simp at he

theorem pairwise_rank_const (f : PEvent → Nat) (l : List PEvent) (c : Nat)
    (h : ∀ a ∈ l, f a = c) :
    List.Pairwise (fun a b => f a ≤ f b) l := by
  induction l with
  | nil => exact List.Pairwise.nil
  | cons x xs ih =>
    refine List.Pairwise.cons ?_
      (ih (fun a ha => h a (List.mem_cons_of_mem _ ha)))
    intro b hb
    rw [h x (List.mem_cons_self _ _), h b (List.mem_cons_of_mem _ hb)]

/-- Amended claim C6: within the processing of each parsed work-experience
entry, the stages run in the order match, then LLM achievement merging
(for matched records), then work-history and achievement persistence, then
skill normalization, then skill persistence — so skill normalization
follows, rather than precedes, achievement merging, and achievement
persistence precedes skill normalization. -/
theorem processEntryTrace_code_order (existing : List ExistingWorkHistoryRec)
    (o : ProcessOracles) (exp : ParsedWorkExperience) :
    List.Pairwise (fun a b => codeStageRank a ≤ codeStageRank b)
      (processEntryTrace existing o exp) := by
  unfold processEntryTrace
  have hskills : ∀ b ∈ (if 0 < exp.skills.length then
      PEvent.normalizeSkills ::
        (o.normalize (exp.skills.filter (fun s => jsTrim s ≠ []))).flatMap
          (skillEvents o)
      else []), 3 ≤ codeStageRank b := by
    intro b hb
    split_ifs at hb with hc
    · rcases List.mem_cons.mp hb with rfl | hb
      · exact Nat.le_refl 3
      · obtain ⟨sid, _, hbe⟩ := List.mem_flatMap.mp hb
        rw [skillEvents_mem o sid b hbe]
        exact Nat.le_succ 3
    · cases hb
  have hskills2 : List.Pairwise (fun a b => codeStageRank a ≤ codeStageRank b)
      (if 0 < exp.skills.length then
        PEvent.normalizeSkills ::
          (o.normalize (exp.skills.filter (fun s => jsTrim s ≠ []))).flatMap
            (skillEvents o)
      else []) := by
    split_ifs with hc
    · refine List.Pairwise.cons ?_ ?_
      · intro b hb
        obtain ⟨sid, _, hbe⟩ := List.mem_flatMap.mp hb
        rw [skillEvents_mem o sid b hbe]
        exact Nat.le_succ 3
      · refine pairwise_rank_const codeStageRank _ 4 ?_
        intro a ha
        obtain ⟨sid, _, hae⟩ := List.mem_flatMap.mp ha
        rw [skillEvents_mem o sid a hae]
        rfl
    · exact List.Pairwise.nil
  cases hfind : existing.find? (fun e =>
      doWorkHistoryRecordsMatch ⟨e.companyName, e.startDate, e.endDate⟩
        ⟨exp.company, exp.startDate, exp.endDate⟩) with
  | some m =>
    refine List.Pairwise.cons ?_ ?_
    · intro b _
      exact Nat.zero_le _
    · refine List.pairwise_append.mpr ⟨?_, hskills2, ?_⟩
      · refine List.Pairwise.cons ?_ (List.Pairwise.cons ?_ ?_)
        · intro b hb
          rcases List.mem_cons.mp hb with rfl | hb
          · exact Nat.le_succ 1
          · obtain ⟨x, _, rfl⟩ := List.mem_map.mp hb
            exact Nat.le_succ 1
        · intro b hb
          obtain ⟨x, _, rfl⟩ := List.mem_map.mp hb
          exact Nat.le_refl 2
        · refine pairwise_rank_const codeStageRank _ 2 ?_
          intro a ha
          obtain ⟨x, _, rfl⟩ := List.mem_map.mp ha
          rfl
      · intro a ha b hb
        have h3 := hskills b hb
        rcases List.mem_cons.mp ha with rfl | ha
        · exact Nat.le_trans (by decide) h3
        · rcases List.mem_cons.mp ha with rfl | ha
          · exact Nat.le_trans (by decide) h3
          · obtain ⟨x, _, rfl⟩ := List.mem_map.mp ha
            exact Nat.le_trans (by decide) h3
  | none =>
    refine List.Pairwise.cons ?_ ?_
    · intro b _
      exact Nat.zero_le _
    · refine List.pairwise_append.mpr ⟨?_, hskills2, ?_⟩
      · refine List.Pairwise.cons ?_ ?_
        · intro b hb
          obtain ⟨x, _, rfl⟩ := List.mem_map.mp hb
          exact Nat.le_refl 2
        · refine pairwise_rank_const codeStageRank _ 2 ?_
          intro a ha
          obtain ⟨x, _, rfl⟩ := List.mem_map.mp ha
          rfl
      · intro a ha b hb
        have h3 := hskills b hb
        rcases List.mem_cons.mp ha with rfl | ha
        · exact Nat.le_trans (by decide) h3
        · obtain ⟨x, _, rfl⟩ := List.mem_map.mp ha
          exact Nat.le_trans (by decide) h3

end ResumeMaster
